import Mathlib

/-!
Verification of the FrameAggregator design (beat-synchronous feature
aggregation, the operation behind `librosa.util.sync`).

The repository's source consists of documentation example scripts that call
`librosa.util.sync` and `librosa.util.fix_frames`; the bodies of those two
library functions are not part of the supplied source, so the definitions
below are modelled from the specification's component design (FrameAggregator,
its data model, error taxonomy, and the boundary-normalization contract).

A feature matrix is represented column-major: a matrix of shape D x T is a
list of T columns, each column a list of D rational entries.
-/

namespace Librosa

/-- One column of a feature matrix: D rational feature values. -/
abbrev Col := List ℚ

/-- A feature matrix of shape D x T, stored as a list of T columns. -/
abbrev Mat := List Col

/-- A reducer takes a non-empty sub-matrix (list of columns) and returns a
single column, or fails (modelling a caller-supplied function that raises). -/
abbrev Reducer := Mat → Option Col

/-- Modelled from the spec: the error taxonomy of the FrameAggregator
(`InvalidBoundary`, `InsufficientBoundaries`, `ReducerError`); the spec's
section 7 defines these, and no implementation is present in the source. -/
inductive AggError where
  | InvalidBoundary
  | InsufficientBoundaries
  | ReducerError
deriving DecidableEq, Repr

/-- The feature dimension D of a matrix: the length of its first column. -/
def dimOf (m : Mat) : ℕ := (m.headD []).length

/-- Columns of `m` with indices in the half-open interval [s, e). -/
def sliceCols (m : Mat) (s e : ℕ) : Mat := (m.drop s).take (e - s)

/-- Consecutive boundary pairs of a boundary list: the induced segments. -/
def segmentsOf (l : List ℕ) : List (ℕ × ℕ) := l.zip l.tail

/-- Modelled from the spec: the synthetic start=0 and end=T endpoints of the
partition ("including synthetic start=0 and end=T endpoints"; "0 is prepended
if not already the first boundary"). Missing from the source: the body of
`librosa.util.sync`, which realizes this normalization. -/
def withStart (l : List ℕ) : List ℕ :=
  if l.head? = some 0 then l else 0 :: l

def addEndpoints (T : ℕ) (l : List ℕ) : List ℕ :=
  if (withStart l).getLast? = some T then withStart l
  else withStart l ++ [T]

/-- Decides that an integer boundary sequence is strictly increasing. -/
def strictlyInc : List ℤ → Bool
  | [] => true
  | [_] => true
  | a :: b :: rest => decide (a < b) && strictlyInc (b :: rest)

/-- Decides that every boundary lies in the valid range [0, T]. -/
def boundsOK (T : ℕ) (bs : List ℤ) : Bool :=
  bs.all (fun b => decide (0 ≤ b) && decide (b ≤ (T : ℤ)))

/-- Reduce each segment of `segs` to one column via `red`, checking that each
produced column has the expected dimension `D`; any reducer failure or
wrong-shaped column aborts the whole computation with `ReducerError`. -/
def aggregateSegs (red : Reducer) (D : ℕ) (m : Mat) :
    List (ℕ × ℕ) → Except AggError Mat
  | [] => .ok []
  | p :: rest =>
    match red (sliceCols m p.1 p.2) with
    | none => .error .ReducerError
    | some c =>
      if c.length = D then
        match aggregateSegs red D m rest with
        | .ok out => .ok (c :: out)
        | .error e => .error e
      else .error .ReducerError

/-- The normalized boundary list: clamp integers to naturals and add the
synthetic endpoints 0 and T. Only called on validated boundaries, where
`Int.toNat` is the identity. -/
def normBoundaries (T : ℕ) (bs : List ℤ) : List ℕ :=
  addEndpoints T (bs.map Int.toNat)

/-- The segments the aggregator induces for boundary list `bs` on a matrix
with `T` time frames, synthetic endpoints included. -/
def segsFor (T : ℕ) (bs : List ℤ) : List (ℕ × ℕ) :=
  segmentsOf (normBoundaries T bs)

/-- Modelled from the spec: the FrameAggregator contract
`aggregate(matrix, boundaries, reducer)`. Missing from the source: the body
of `librosa.util.sync`. Per the spec: fewer than two boundary points (no
valid segment) fail with `InsufficientBoundaries`; a boundary outside [0, T]
or a non-strictly-increasing sequence fails with `InvalidBoundary`; otherwise
[0, T) is partitioned into half-open intervals between consecutive boundaries
(synthetic endpoints 0 and T included) and each segment's column slice is
reduced to one column; a reducer failure or wrong-shaped column fails with
`ReducerError`. -/
def aggregate (m : Mat) (bs : List ℤ) (red : Reducer) : Except AggError Mat :=
  if bs.length < 2 then .error .InsufficientBoundaries
  else if boundsOK m.length bs && strictlyInc bs then
    aggregateSegs red (dimOf m) m (segsFor m.length bs)
  else .error .InvalidBoundary

/-- Pointwise sum of two columns. -/
def colAdd (a b : Col) : Col := List.zipWith (· + ·) a b

/-- Pointwise sum of a list of columns (empty list sums to the empty column;
the reducer never calls it on an empty list). -/
def colSumFold : List Col → Col
  | [] => []
  | [c] => c
  | c :: c2 :: rest => colAdd c (colSumFold (c2 :: rest))

/-- Modelled from the spec: the arithmetic-mean reducer (`np.mean` along the
time axis), the default aggregation of `librosa.util.sync`, whose body is
missing from the source. -/
def meanReducer : Reducer := fun cols =>
  match cols with
  | [] => none
  | _ :: _ => some ((colSumFold cols).map (fun x => x / (cols.length : ℚ)))

/-- The identity reducer: on a singleton slice it returns that column. -/
def idReducer : Reducer := fun cols => cols.head?

/-- Modelled from the spec: `librosa.util.sync` with an optional aggregation
function defaulting to the arithmetic mean (the source's comment: "By
default, use mean aggregation"). Missing from the source: the body of
`librosa.util.sync`. -/
def sync (m : Mat) (bs : List ℤ) (agg : Option Reducer) : Except AggError Mat :=
  aggregate m bs (agg.getD meanReducer)

/-- Insert `x` into a strictly sorted list, keeping it sorted and duplicate
free. -/
def insertUnique (x : ℕ) : List ℕ → List ℕ
  | [] => [x]
  | y :: ys =>
    if x < y then x :: y :: ys
    else if x = y then y :: ys
    else y :: insertUnique x ys

/-- Sort a list of naturals into strictly increasing order, dropping
duplicates. -/
def sortUnique (l : List ℕ) : List ℕ := l.foldr insertUnique []

/-- Modelled from the spec: the boundary-normalization routine
`librosa.util.fix_frames(frames, x_max=...)`, whose body is missing from the
source: it discards frame indices outside [0, x_max], pads with the endpoints
0 and x_max, and returns a duplicate-free sorted frame list. -/
def fix_frames (frames : List ℤ) (x_max : ℕ) : List ℕ :=
  sortUnique
    (0 :: x_max ::
      (frames.filter (fun b => decide (0 ≤ b) && decide (b ≤ (x_max : ℤ)))).map
        Int.toNat)

/-- The dataflow of the example script: every call to `sync` there is fed
boundaries produced by `fix_frames` with `x_max` set to the matrix's frame
count (`beats = fix_frames(beats, x_max=cqt.shape[1]); sync(cqt, beats)`). -/
def beat_sync_script (cqt : Mat) (beats : List ℤ) : Except AggError Mat :=
  sync cqt ((fix_frames beats cqt.length).map Int.ofNat) none

deriving instance DecidableEq for Except

example : aggregate [[(1:ℚ)],[2]] [0,1,2] idReducer = .ok [[1],[2]] := by decide

example : aggregate [[(1:ℚ)]] [0] meanReducer = .error .InsufficientBoundaries := by
  decide

example : aggregate [[(1:ℚ)]] [0, 2] meanReducer = .error .InvalidBoundary := by
  decide

example : fix_frames [3, -1, 9] 6 = [0, 3, 6] := by decide

/-! ### Helper lemmas about segments -/

lemma segmentsOf_cons_cons (a b : ℕ) (rest : List ℕ) :
    segmentsOf (a :: b :: rest) = (a, b) :: segmentsOf (b :: rest) := rfl

lemma mem_segmentsOf {l : List ℕ} {p : ℕ × ℕ} (h : p ∈ segmentsOf l) :
    p.1 ∈ l ∧ p.2 ∈ l := by
  unfold segmentsOf at h
  rcases p with ⟨x, y⟩
  have hxy := List.of_mem_zip h
  exact ⟨hxy.1, List.mem_of_mem_tail hxy.2⟩

lemma segmentsOf_lt : ∀ {l : List ℕ}, l.Chain' (· < ·) →
    ∀ p ∈ segmentsOf l, p.1 < p.2
  | [], _, p, hp => by simp [segmentsOf] at hp
  | [a], _, p, hp => by simp [segmentsOf] at hp
  | a :: b :: rest, hc, p, hp => by
    rw [segmentsOf_cons_cons] at hp
    rcases List.chain'_cons.mp hc with ⟨hab, hc'⟩
    rcases List.mem_cons.mp hp with hp | hp
    · simpa [hp] using hab
    · exact segmentsOf_lt hc' p hp

lemma segmentsOf_length (l : List ℕ) :
    (segmentsOf l).length = l.length - 1 := by
  simp [segmentsOf, List.length_zip, List.length_tail]

/-! ### Helper lemmas about `aggregateSegs` -/

lemma aggregateSegs_ok (red : Reducer) (D : ℕ) (m : Mat) :
    ∀ (segs : List (ℕ × ℕ)),
    (∀ p ∈ segs, ∃ c, red (sliceCols m p.1 p.2) = some c ∧ c.length = D) →
    aggregateSegs red D m segs =
      .ok (segs.map (fun p => (red (sliceCols m p.1 p.2)).getD []))
  | [], _ => rfl
  | p :: rest, h => by
    obtain ⟨c, hc, hlen⟩ := h p (List.mem_cons_self p rest)
    have ih := aggregateSegs_ok red D m rest
      (fun q hq => h q (List.mem_cons_of_mem _ hq))
    simp [aggregateSegs, hc, hlen, ih]

lemma aggregateSegs_ok_elim {red : Reducer} {D : ℕ} {m : Mat} :
    ∀ {segs : List (ℕ × ℕ)} {out : Mat},
    aggregateSegs red D m segs = .ok out →
    out.length = segs.length ∧ ∀ c ∈ out, c.length = D
  | [], out, h => by
    simp only [aggregateSegs] at h
    cases h
    simp
  | p :: rest, out, h => by
    simp only [aggregateSegs] at h
    rcases hr : red (sliceCols m p.1 p.2) with _ | c <;> simp only [hr] at h
    · exact Except.noConfusion h
    · by_cases hlen : c.length = D
      · rw [if_pos hlen] at h
        rcases hrec : aggregateSegs red D m rest with e | out' <;>
          simp only [hrec] at h
        · exact Except.noConfusion h
        · cases h
          obtain ⟨h1, h2⟩ := aggregateSegs_ok_elim hrec
          refine ⟨by simp [h1], ?_⟩
          intro d hd
          rcases List.mem_cons.mp hd with hd | hd
          · simpa [hd] using hlen
          · exact h2 d hd
      · rw [if_neg hlen] at h
        exact Except.noConfusion h

lemma aggregateSegs_error_eq {red : Reducer} {D : ℕ} {m : Mat} :
    ∀ {segs : List (ℕ × ℕ)} {e : AggError},
    aggregateSegs red D m segs = .error e → e = .ReducerError
  | [], e, h => by
    simp only [aggregateSegs] at h
    exact Except.noConfusion h
  | p :: rest, e, h => by
    simp only [aggregateSegs] at h
    rcases hr : red (sliceCols m p.1 p.2) with _ | c <;> simp only [hr] at h
    · cases h; rfl
    · by_cases hlen : c.length = D
      · rw [if_pos hlen] at h
        rcases hrec : aggregateSegs red D m rest with e' | out' <;>
          simp only [hrec] at h
        · cases h
          exact aggregateSegs_error_eq hrec
        · exact Except.noConfusion h
      · rw [if_neg hlen] at h
        cases h; rfl

lemma aggregateSegs_fail {red : Reducer} {D : ℕ} {m : Mat} :
    ∀ {segs : List (ℕ × ℕ)} (p : ℕ × ℕ), p ∈ segs →
    (¬ ∃ c, red (sliceCols m p.1 p.2) = some c ∧ c.length = D) →
    aggregateSegs red D m segs = .error .ReducerError
  | [], p, hp, _ => nomatch hp
  | q :: rest, p, hp, hbad => by
    rcases List.mem_cons.mp hp with hq | hq
    · subst hq
      rcases hr : red (sliceCols m p.1 p.2) with _ | c
      · simp [aggregateSegs, hr]
      · have hlen : ¬ c.length = D := fun hl => hbad ⟨c, hr, hl⟩
        simp [aggregateSegs, hr, hlen]
    · rcases hr : red (sliceCols m q.1 q.2) with _ | c
      · simp [aggregateSegs, hr]
      · by_cases hlen : c.length = D
        · simp [aggregateSegs, hr, hlen, aggregateSegs_fail p hq hbad]
        · simp [aggregateSegs, hr, hlen]

/-! ### Helper lemmas about boundary validation -/

lemma strictlyInc_iff_chain' :
    ∀ (bs : List ℤ), strictlyInc bs = true ↔ bs.Chain' (· < ·)
  | [] => by simp [strictlyInc]
  | [a] => by simp [strictlyInc]
  | a :: b :: rest => by
    rw [strictlyInc, Bool.and_eq_true, decide_eq_true_iff, List.chain'_cons,
      strictlyInc_iff_chain' (b :: rest)]

lemma boundsOK_iff {T : ℕ} {bs : List ℤ} :
    boundsOK T bs = true ↔ ∀ b ∈ bs, 0 ≤ b ∧ b ≤ (T : ℤ) := by
  simp [boundsOK, List.all_eq_true]

lemma chain'_toNat : ∀ {bs : List ℤ}, (∀ b ∈ bs, 0 ≤ b) →
    bs.Chain' (· < ·) → (bs.map Int.toNat).Chain' (· < ·)
  | [], _, _ => by simp
  | [a], _, _ => by simp
  | a :: b :: rest, h0, hc => by
    rcases List.chain'_cons.mp hc with ⟨hab, hc'⟩
    have h0a : 0 ≤ a := h0 a (by simp)
    have ihyp : (∀ x ∈ b :: rest, 0 ≤ x) :=
      fun x hx => h0 x (List.mem_cons_of_mem _ hx)
    have ih := chain'_toNat ihyp hc'
    rw [List.map_cons] at ih ⊢
    rw [List.map_cons, List.chain'_cons]
    exact ⟨by omega, ih⟩

lemma withStart_head? (l : List ℕ) : (withStart l).head? = some 0 := by
  unfold withStart
  split
  · assumption
  · rfl

lemma withStart_ne_nil (l : List ℕ) : withStart l ≠ [] := by
  intro h
  have := withStart_head? l
  rw [h] at this
  exact Option.noConfusion this

lemma withStart_mem_le (T : ℕ) (l : List ℕ) (hb : ∀ x ∈ l, x ≤ T) :
    ∀ y ∈ withStart l, y ≤ T := by
  intro y hy
  unfold withStart at hy
  split at hy
  · exact hb y hy
  · rcases List.mem_cons.mp hy with hy | hy
    · omega
    · exact hb y hy

lemma withStart_chain' (l : List ℕ) (hc : l.Chain' (· < ·)) :
    (withStart l).Chain' (· < ·) := by
  unfold withStart
  split
  · exact hc
  · rename_i h0
    rw [List.chain'_cons']
    refine ⟨?_, hc⟩
    intro y hy
    rcases hl : l.head? with _ | z
    · rw [hl] at hy
      exact Option.noConfusion hy
    · rw [hl] at hy
      simp only [Option.mem_def, Option.some.injEq] at hy
      subst hy
      have hz : z ≠ 0 := by
        intro h
        rw [h] at hl
        exact h0 hl
      omega

lemma addEndpoints_head? (T : ℕ) (l : List ℕ) :
    (addEndpoints T l).head? = some 0 := by
  unfold addEndpoints
  split
  · exact withStart_head? l
  · rw [List.head?_append, withStart_head? l]
    rfl

lemma addEndpoints_getLast? (T : ℕ) (l : List ℕ) :
    (addEndpoints T l).getLast? = some T := by
  unfold addEndpoints
  split
  · assumption
  · exact List.getLast?_concat _

lemma addEndpoints_mem_le (T : ℕ) (l : List ℕ) (hb : ∀ x ∈ l, x ≤ T) :
    ∀ x ∈ addEndpoints T l, x ≤ T := by
  intro x hx
  unfold addEndpoints at hx
  split at hx
  · exact withStart_mem_le T l hb x hx
  · rcases List.mem_append.mp hx with hx | hx
    · exact withStart_mem_le T l hb x hx
    · simp at hx
      omega

lemma addEndpoints_chain' (T : ℕ) (l : List ℕ) (hc : l.Chain' (· < ·))
    (hb : ∀ x ∈ l, x ≤ T) : (addEndpoints T l).Chain' (· < ·) := by
  unfold addEndpoints
  split
  · exact withStart_chain' l hc
  · rename_i hlast
    rw [List.chain'_append]
    refine ⟨withStart_chain' l hc, List.chain'_singleton _, ?_⟩
    intro x hx y hy
    simp only [List.head?_cons, Option.mem_def, Option.some.injEq] at hy
    subst hy
    have hxmem := List.mem_of_getLast?_eq_some hx
    have hxle : x ≤ T := withStart_mem_le T l hb x hxmem
    have hxne : x ≠ T := by
      intro hxT
      subst hxT
      exact hlast hx
    omega

lemma normBoundaries_chain' {T : ℕ} {bs : List ℤ}
    (hbOK : boundsOK T bs = true) (hinc : strictlyInc bs = true) :
    (normBoundaries T bs).Chain' (· < ·) := by
  unfold normBoundaries
  refine addEndpoints_chain' T _ ?_ ?_
  · exact chain'_toNat (fun b hb => (boundsOK_iff.mp hbOK b hb).1)
      ((strictlyInc_iff_chain' bs).mp hinc)
  · intro x hx
    rcases List.mem_map.mp hx with ⟨b, hb, rfl⟩
    have := (boundsOK_iff.mp hbOK b hb).2
    omega

lemma normBoundaries_mem_le {T : ℕ} {bs : List ℤ}
    (hbOK : boundsOK T bs = true) :
    ∀ x ∈ normBoundaries T bs, x ≤ T := by
  unfold normBoundaries
  refine addEndpoints_mem_le T _ ?_
  intro x hx
  rcases List.mem_map.mp hx with ⟨b, hb, rfl⟩
  have := (boundsOK_iff.mp hbOK b hb).2
  omega

lemma segsFor_valid {T : ℕ} {bs : List ℤ}
    (hbOK : boundsOK T bs = true) (hinc : strictlyInc bs = true) :
    ∀ p ∈ segsFor T bs, p.1 < p.2 ∧ p.2 ≤ T := by
  intro p hp
  have h1 := segmentsOf_lt (normBoundaries_chain' hbOK hinc) p hp
  have h2 := (mem_segmentsOf hp).2
  exact ⟨h1, normBoundaries_mem_le hbOK p.2 h2⟩

/-! ### Helper lemmas about slices -/

lemma sliceCols_ne_nil {m : Mat} {s e : ℕ} (h1 : s < e) (h2 : e ≤ m.length) :
    sliceCols m s e ≠ [] := by
  rw [← List.length_pos]
  simp only [sliceCols, List.length_take, List.length_drop]
  omega

lemma sliceCols_mem {m : Mat} {s e : ℕ} {c : Col} (h : c ∈ sliceCols m s e) :
    c ∈ m :=
  List.mem_of_mem_drop (List.mem_of_mem_take h)

/-! ### The segments cover the time axis exactly once -/

lemma cover_count : ∀ (rest : List ℕ) (a la t : ℕ),
    (a :: rest).Chain' (· < ·) → (a :: rest).getLast? = some la →
    a ≤ t → t < la →
    (segmentsOf (a :: rest)).countP
      (fun p => decide (p.1 ≤ t) && decide (t < p.2)) = 1
  | [], a, la, t, _, hlast, hat, htla => by
    simp only [List.getLast?_singleton, Option.some.injEq] at hlast
    omega
  | b :: rest', a, la, t, hc, hlast, hat, htla => by
    rcases List.chain'_cons.mp hc with ⟨hab, hc'⟩
    rw [List.getLast?_cons_cons] at hlast
    rw [segmentsOf_cons_cons, List.countP_cons]
    by_cases htb : t < b
    · have hpred : (decide (a ≤ t) && decide (t < b)) = true := by
        simp [hat, htb]
      rw [hpred]
      have hz : (segmentsOf (b :: rest')).countP
          (fun p => decide (p.1 ≤ t) && decide (t < p.2)) = 0 := by
        rw [List.countP_eq_zero]
        intro q hq
        have hq1 : q.1 ∈ b :: rest' := (mem_segmentsOf hq).1
        have hpw : ∀ x ∈ rest', b < x := by
          have := List.chain'_iff_pairwise.mp hc'
          exact fun x hx => (List.pairwise_cons.mp this).1 x hx
        have hbq : b ≤ q.1 := by
          rcases List.mem_cons.mp hq1 with h | h
          · omega
          · have := hpw q.1 h
            omega
        simp only [Bool.and_eq_true, decide_eq_true_iff]
        intro hcon
        omega
      rw [hz]
      simp
    · have hpred : (decide (a ≤ t) && decide (t < b)) = false := by
        simp [htb]
      rw [hpred]
      have ih := cover_count rest' b la t hc' hlast (by omega) htla
      rw [ih]
      simp

/-! ### Master lemma: aggregation succeeds on valid input -/

lemma aggregate_ok_of_valid (m : Mat) (bs : List ℤ) (red : Reducer)
    (hwf : ∀ c ∈ m, c.length = dimOf m)
    (hlen : 2 ≤ bs.length)
    (hbOK : boundsOK m.length bs = true)
    (hinc : strictlyInc bs = true)
    (hred : ∀ sub, sub ≠ [] → (∀ c ∈ sub, c.length = dimOf m) →
      ∃ c', red sub = some c' ∧ c'.length = dimOf m) :
    aggregate m bs red =
      .ok ((segsFor m.length bs).map
        (fun p => (red (sliceCols m p.1 p.2)).getD [])) := by
  unfold aggregate
  rw [if_neg (by omega), if_pos (by simp [hbOK, hinc])]
  refine aggregateSegs_ok red (dimOf m) m _ ?_
  intro p hp
  obtain ⟨h1, h2⟩ := segsFor_valid hbOK hinc p hp
  exact hred _ (sliceCols_ne_nil h1 h2) (fun c hc => hwf c (sliceCols_mem hc))

lemma aggregate_insufficient_of_short (m : Mat) (bs : List ℤ) (red : Reducer)
    (hlen : bs.length < 2) :
    aggregate m bs red = .error .InsufficientBoundaries := by
  unfold aggregate
  rw [if_pos hlen]

lemma aggregate_invalid_of_bad (m : Mat) (bs : List ℤ) (red : Reducer)
    (hlen : ¬ bs.length < 2)
    (hbad : ¬ (boundsOK m.length bs = true ∧ strictlyInc bs = true)) :
    aggregate m bs red = .error .InvalidBoundary := by
  unfold aggregate
  rw [if_neg hlen, if_neg (by simpa [Bool.and_eq_true] using hbad)]

/-! ### Conformance of the concrete reducers -/

lemma colAdd_length {a b : Col} (ha : a.length = b.length) :
    (colAdd a b).length = a.length := by
  simp [colAdd, ha]

lemma colSumFold_length : ∀ (D : ℕ) (cols : List Col), cols ≠ [] →
    (∀ c ∈ cols, c.length = D) → (colSumFold cols).length = D
  | _, [], h, _ => absurd rfl h
  | D, [c], _, hwf => by
    simpa [colSumFold] using hwf c (by simp)
  | D, c :: c2 :: rest, _, hwf => by
    have ih := colSumFold_length D (c2 :: rest) (by simp)
      (fun d hd => hwf d (List.mem_cons_of_mem _ hd))
    have hc : c.length = D := hwf c (by simp)
    rw [colSumFold, colAdd_length (by rw [hc, ih]), hc]

lemma meanReducer_conforms (D : ℕ) (cols : List Col) (hne : cols ≠ [])
    (hwf : ∀ c ∈ cols, c.length = D) :
    ∃ c', meanReducer cols = some c' ∧ c'.length = D := by
  rcases cols with _ | ⟨c, rest⟩
  · exact absurd rfl hne
  · refine ⟨_, rfl, ?_⟩
    simp only [List.length_map]
    exact colSumFold_length D (c :: rest) (by simp) hwf

lemma idReducer_conforms (D : ℕ) (cols : List Col) (hne : cols ≠ [])
    (hwf : ∀ c ∈ cols, c.length = D) :
    ∃ c', idReducer cols = some c' ∧ c'.length = D := by
  rcases cols with _ | ⟨c, rest⟩
  · exact absurd rfl hne
  · exact ⟨c, rfl, hwf c (by simp)⟩

/-! ### Normalized boundaries: head and last element -/

lemma normBoundaries_head? (T : ℕ) (bs : List ℤ) :
    (normBoundaries T bs).head? = some 0 :=
  addEndpoints_head? T (bs.map Int.toNat)

lemma normBoundaries_getLast? (T : ℕ) (bs : List ℤ) :
    (normBoundaries T bs).getLast? = some T :=
  addEndpoints_getLast? T (bs.map Int.toNat)

/-! ### Segments of a contiguous range are the singleton intervals -/

lemma segmentsOf_range' : ∀ (n s : ℕ),
    segmentsOf (List.range' s (n + 1)) =
      (List.range' s n).map (fun i => (i, i + 1))
  | 0, s => rfl
  | n + 1, s => by
    have h1 : List.range' s (n + 2) = s :: (s + 1) :: List.range' (s + 2) n := by
      rw [List.range'_succ, List.range'_succ]
    have h2 : (s + 1) :: List.range' (s + 2) n = List.range' (s + 1) (n + 1) := by
      rw [List.range'_succ]
    rw [h1, segmentsOf_cons_cons, h2, segmentsOf_range' n (s + 1),
      List.range'_succ, List.map_cons]

lemma range_head? {T : ℕ} (hT : 1 ≤ T) : (List.range T).head? = some 0 := by
  rw [List.range_eq_range', List.head?_range', if_neg (by omega)]

lemma range_getLast? (T : ℕ) :
    (List.range T).getLast? = if T = 0 then none else some (T - 1) := by
  rw [List.range_eq_range', List.getLast?_range']
  simp

lemma addEndpoints_range {T : ℕ} (hT : 1 ≤ T) :
    addEndpoints T (List.range T) = List.range (T + 1) := by
  have hws : withStart (List.range T) = List.range T := by
    unfold withStart
    rw [if_pos (range_head? hT)]
  unfold addEndpoints
  rw [hws]
  have hlast : ¬ (List.range T).getLast? = some T := by
    rw [range_getLast?, if_neg (by omega : ¬ T = 0)]
    intro h
    rw [Option.some.injEq] at h
    omega
  rw [if_neg hlast, List.range_succ]

lemma normBoundaries_range {T : ℕ} (hT : 1 ≤ T) :
    normBoundaries T ((List.range T).map Int.ofNat) = List.range (T + 1) := by
  unfold normBoundaries
  have hmaps : ((List.range T).map Int.ofNat).map Int.toNat = List.range T := by
    rw [List.map_map]
    simp [Function.comp_def]
  rw [hmaps, addEndpoints_range hT]

lemma segsFor_range {T : ℕ} (hT : 1 ≤ T) :
    segsFor T ((List.range T).map Int.ofNat) =
      (List.range T).map (fun i => (i, i + 1)) := by
  unfold segsFor
  rw [normBoundaries_range hT, List.range_eq_range', segmentsOf_range' T 0,
    ← List.range_eq_range']

/-! ### Zipping a list with its own image -/

lemma zip_self_map {α β : Type*} :
    ∀ (l : List α) (f : α → β), l.zip (l.map f) = l.map (fun a => (a, f a))
  | [], _ => rfl
  | a :: rest, f => by
    rw [List.map_cons, List.zip_cons_cons, zip_self_map rest f, List.map_cons]

/-! ### Membership in the output of `fix_frames` -/

lemma mem_insertUnique : ∀ (l : List ℕ) (x y : ℕ),
    y ∈ insertUnique x l ↔ y = x ∨ y ∈ l
  | [], x, y => by simp [insertUnique]
  | z :: zs, x, y => by
    unfold insertUnique
    split
    · simp [List.mem_cons]
    · split
      · rename_i h1 h2
        subst h2
        simp only [List.mem_cons]
        tauto
      · simp only [List.mem_cons, mem_insertUnique zs x y]
        tauto

lemma mem_sortUnique : ∀ (l : List ℕ) (y : ℕ), y ∈ sortUnique l ↔ y ∈ l
  | [], y => by simp [sortUnique]
  | x :: xs, y => by
    have hstep : sortUnique (x :: xs) = insertUnique x (sortUnique xs) := rfl
    rw [hstep, mem_insertUnique, mem_sortUnique xs y, List.mem_cons]

lemma fix_frames_mem_le (frames : List ℤ) (M : ℕ) :
    ∀ x ∈ fix_frames frames M, x ≤ M := by
  intro x hx
  unfold fix_frames at hx
  rw [mem_sortUnique] at hx
  rcases List.mem_cons.mp hx with hx | hx
  · omega
  rcases List.mem_cons.mp hx with hx | hx
  · omega
  rcases List.mem_map.mp hx with ⟨b, hb, rfl⟩
  have hfil := (List.mem_filter.mp hb).2
  simp only [Bool.and_eq_true, decide_eq_true_iff] at hfil
  omega

lemma fix_frames_mem_max (frames : List ℤ) (M : ℕ) :
    M ∈ fix_frames frames M := by
  unfold fix_frames
  rw [mem_sortUnique]
  simp

/-! ## The claims -/

/-- C1: for every D x T feature matrix (T at least 1), every strictly
increasing boundary sequence within [0, T] with at least two points, and
every conforming reducer (total and dimension preserving on well-formed
non-empty slices), `aggregate` returns a D x (number of segments) matrix
whose columns appear in the temporal order of the boundaries, each column
equal to the reducer applied to the corresponding contiguous slice. -/
theorem aggregate_shape_and_order (m : Mat) (bs : List ℤ) (red : Reducer)
    (_hT : 1 ≤ m.length)
    (hwf : ∀ c ∈ m, c.length = dimOf m)
    (hlen : 2 ≤ bs.length)
    (hbOK : boundsOK m.length bs = true)
    (hinc : strictlyInc bs = true)
    (hred : ∀ sub, sub ≠ [] → (∀ c ∈ sub, c.length = dimOf m) →
      ∃ c', red sub = some c' ∧ c'.length = dimOf m) :
    ∃ out, aggregate m bs red = .ok out
      ∧ out.length = (segsFor m.length bs).length
      ∧ (∀ c ∈ out, c.length = dimOf m)
      ∧ ∀ pr ∈ (segsFor m.length bs).zip out,
          red (sliceCols m pr.1.1 pr.1.2) = some pr.2 := by
  refine ⟨_, aggregate_ok_of_valid m bs red hwf hlen hbOK hinc hred, by simp,
    ?_, ?_⟩
  · intro c hc
    rcases List.mem_map.mp hc with ⟨p, hp, rfl⟩
    obtain ⟨h1, h2⟩ := segsFor_valid hbOK hinc p hp
    obtain ⟨c', hc', hlen'⟩ := hred _ (sliceCols_ne_nil h1 h2)
      (fun d hd => hwf d (sliceCols_mem hd))
    rw [hc']
    simpa using hlen'
  · intro pr hpr
    rw [zip_self_map] at hpr
    rcases List.mem_map.mp hpr with ⟨p, hp, rfl⟩
    obtain ⟨h1, h2⟩ := segsFor_valid hbOK hinc p hp
    obtain ⟨c', hc', _⟩ := hred _ (sliceCols_ne_nil h1 h2)
      (fun d hd => hwf d (sliceCols_mem hd))
    simp [hc']

theorem aggregate_shape_and_order_witness :
    ∃ out, aggregate [[(0:ℚ)],[4]] [0, 2] meanReducer = .ok out
      ∧ out.length = (segsFor (List.length [[(0:ℚ)],[4]]) [0, 2]).length
      ∧ (∀ c ∈ out, c.length = dimOf [[(0:ℚ)],[4]])
      ∧ ∀ pr ∈ (segsFor (List.length [[(0:ℚ)],[4]]) [0, 2]).zip out,
          meanReducer (sliceCols [[(0:ℚ)],[4]] pr.1.1 pr.1.2) = some pr.2 :=
  aggregate_shape_and_order [[(0:ℚ)],[4]] [0, 2] meanReducer (by decide)
    (by decide) (by decide) (by decide) (by decide)
    (fun sub hne hsubwf => meanReducer_conforms _ sub hne hsubwf)

/-- C2: for every strictly increasing in-range boundary sequence, the
segments induced by `aggregate` (with the synthetic start=0 and end=T
endpoints) cover every time frame t in [0, T) exactly once — no gap, no
overlap — and on success the number of output columns equals the number of
induced segments. -/
theorem aggregate_partition (m : Mat) (bs : List ℤ) (red : Reducer)
    (hbOK : boundsOK m.length bs = true) (hinc : strictlyInc bs = true) :
    (∀ t, t < m.length →
      (segsFor m.length bs).countP
        (fun p => decide (p.1 ≤ t) && decide (t < p.2)) = 1)
    ∧ (∀ out, aggregate m bs red = .ok out →
        out.length = (segsFor m.length bs).length) := by
  constructor
  · intro t ht
    have hc := normBoundaries_chain' hbOK hinc
    have hh := normBoundaries_head? m.length bs
    have hl := normBoundaries_getLast? m.length bs
    unfold segsFor
    rcases hnm : normBoundaries m.length bs with _ | ⟨a, rest⟩
    · rw [hnm] at hh
      exact Option.noConfusion hh
    · rw [hnm] at hh hl hc
      rw [List.head?_cons, Option.some.injEq] at hh
      subst hh
      exact cover_count rest 0 m.length t hc hl (by omega) ht
  · intro out hout
    unfold aggregate at hout
    by_cases h2 : bs.length < 2
    · rw [if_pos h2] at hout
      exact Except.noConfusion hout
    · rw [if_neg h2, if_pos (by simp [hbOK, hinc])] at hout
      exact (aggregateSegs_ok_elim hout).1

theorem aggregate_partition_witness :
    (segsFor (List.length [[(0:ℚ)],[0]]) [0, 2]).countP
      (fun p => decide (p.1 ≤ 0) && decide (0 < p.2)) = 1 :=
  (aggregate_partition [[(0:ℚ)],[0]] [0, 2] meanReducer (by decide)
    (by decide)).1 0 (by decide)

/-- C3 as amended: for every feature matrix with at least two time frames
whose columns all have the matrix's dimension, aggregating with boundaries
equal to every frame index and the identity reducer reproduces the matrix.
(For T = 1 the claim fails: the single boundary [0] is rejected with
`InsufficientBoundaries`; see the counterexample.) -/
theorem aggregate_identity_singletons (m : Mat) (hT : 2 ≤ m.length)
    (hwf : ∀ c ∈ m, c.length = dimOf m) :
    aggregate m ((List.range m.length).map Int.ofNat) idReducer = .ok m := by
  have hbOK : boundsOK m.length ((List.range m.length).map Int.ofNat) = true := by
    rw [boundsOK_iff]
    intro b hb
    rcases List.mem_map.mp hb with ⟨i, hi, rfl⟩
    have := List.mem_range.mp hi
    simp only [Int.ofNat_eq_natCast]
    constructor <;> omega
  have hinc : strictlyInc ((List.range m.length).map Int.ofNat) = true := by
    rw [strictlyInc_iff_chain', List.chain'_map]
    refine List.Chain'.imp ?_
      (List.Pairwise.chain' (List.pairwise_lt_range m.length))
    intro a b h
    simp only [Int.ofNat_eq_natCast]
    omega
  have hmain := aggregate_ok_of_valid m _ idReducer hwf (by simpa using hT)
    hbOK hinc (fun sub hne hsubwf => idReducer_conforms (dimOf m) sub hne hsubwf)
  rw [hmain, segsFor_range (by omega)]
  congr 1
  rw [List.map_map]
  refine List.ext_getElem (by simp) ?_
  intro i h1 h2
  simp only [List.getElem_map, List.getElem_range, Function.comp_apply]
  have hslice : sliceCols m i (i + 1) = (m.drop i).take 1 := by
    unfold sliceCols
    congr 1
    omega
  rw [hslice]
  show ((m.drop i).take 1).head?.getD [] = m[i]
  rw [List.head?_take, if_neg (by omega : ¬ (1 : ℕ) = 0), List.head?_drop,
    List.getElem?_eq_getElem (by simpa using h2)]
  rfl

theorem aggregate_identity_singletons_witness :
    aggregate [[(0:ℚ)],[1]]
      ((List.range (List.length [[(0:ℚ)],[1]])).map Int.ofNat) idReducer
      = .ok [[(0:ℚ)],[1]] :=
  aggregate_identity_singletons [[(0:ℚ)],[1]] (by decide) (by decide)

theorem aggregate_identity_singletons_cex :
    aggregate [[(1:ℚ)]]
      ((List.range (List.length [[(1:ℚ)]])).map Int.ofNat) idReducer
      = .error .InsufficientBoundaries
    ∧ ¬ aggregate [[(1:ℚ)]]
      ((List.range (List.length [[(1:ℚ)]])).map Int.ofNat) idReducer
      = .ok [[(1:ℚ)]] := by decide

/-- C4: a boundary list with fewer than two points (empty or a single
point, i.e. fewer than one valid segment) fails with
`InsufficientBoundaries`; with at least two points, well-formed boundaries
and a conforming reducer, `aggregate` succeeds. -/
theorem aggregate_insufficient_boundaries (m : Mat) (bs : List ℤ)
    (red : Reducer) :
    (bs.length < 2 → aggregate m bs red = .error .InsufficientBoundaries)
    ∧ ((∀ c ∈ m, c.length = dimOf m) →
       (∀ sub, sub ≠ [] → (∀ c ∈ sub, c.length = dimOf m) →
         ∃ c', red sub = some c' ∧ c'.length = dimOf m) →
       2 ≤ bs.length → boundsOK m.length bs = true → strictlyInc bs = true →
       ∃ out, aggregate m bs red = .ok out) := by
  constructor
  · exact fun h => aggregate_insufficient_of_short m bs red h
  · intro hwf hred hlen hbOK hinc
    exact ⟨_, aggregate_ok_of_valid m bs red hwf hlen hbOK hinc hred⟩

theorem aggregate_insufficient_boundaries_witness :
    aggregate [[(0:ℚ)]] [0] meanReducer = .error .InsufficientBoundaries
    ∧ ∃ out, aggregate [[(0:ℚ)]] [0, 1] meanReducer = .ok out :=
  ⟨(aggregate_insufficient_boundaries [[(0:ℚ)]] [0] meanReducer).1 (by decide),
   (aggregate_insufficient_boundaries [[(0:ℚ)]] [0, 1] meanReducer).2
     (by decide) (fun sub hne hsubwf => meanReducer_conforms _ sub hne hsubwf)
     (by decide) (by decide) (by decide)⟩

theorem aggregate_invalid_iff_cex :
    (aggregate [[(0:ℚ)],[0]] [0, 2] meanReducer = .ok [[0]]
      ∧ ¬ aggregate [[(0:ℚ)],[0]] [0, 2] meanReducer
          = .error .InvalidBoundary)
    ∧ (aggregate [[(0:ℚ)],[0]] [-1] meanReducer
        = .error .InsufficientBoundaries
      ∧ ¬ aggregate [[(0:ℚ)],[0]] [-1] meanReducer
          = .error .InvalidBoundary) := by
  have h1 : aggregate [[(0:ℚ)],[0]] [0, 2] meanReducer = .ok [[0]] := by
    simp [aggregate, aggregateSegs, segsFor, normBoundaries, addEndpoints,
      withStart, boundsOK, strictlyInc, segmentsOf, sliceCols, dimOf,
      meanReducer, colSumFold, colAdd]
  refine ⟨⟨h1, ?_⟩, by decide, by decide⟩
  intro h
  rw [h1] at h
  exact Except.noConfusion h

/-- C5 as amended: with at least two boundary points, `aggregate` fails
with `InvalidBoundary` exactly when some boundary is negative or strictly
greater than T, or the sequence is not strictly increasing. (The original
claim fails twice: a boundary equal to T is valid — T is the exclusive
upper bound segment endpoint, as in the spec's own worked example with
boundaries [0,3,6] and T=6 — and with fewer than two points an
out-of-range boundary is reported as `InsufficientBoundaries`, not
`InvalidBoundary`; see the counterexample.) -/
theorem aggregate_invalid_iff (m : Mat) (bs : List ℤ) (red : Reducer)
    (hlen : 2 ≤ bs.length) :
    aggregate m bs red = .error .InvalidBoundary
      ↔ (∃ b ∈ bs, b < 0 ∨ (m.length : ℤ) < b) ∨ ¬ strictlyInc bs = true := by
  have hnot2 : ¬ bs.length < 2 := by omega
  constructor
  · intro h
    by_contra hcon
    push_neg at hcon
    obtain ⟨h1, h2⟩ := hcon
    have hbOK : boundsOK m.length bs = true := by
      rw [boundsOK_iff]
      intro b hb
      have := h1 b hb
      omega
    unfold aggregate at h
    rw [if_neg hnot2, if_pos (by simp [hbOK, h2])] at h
    exact AggError.noConfusion (aggregateSegs_error_eq h)
  · intro h
    apply aggregate_invalid_of_bad m bs red hnot2
    rintro ⟨hbOK, hinc⟩
    rcases h with ⟨b, hb, hbad⟩ | h
    · have := boundsOK_iff.mp hbOK b hb
      omega
    · exact h hinc

theorem aggregate_invalid_iff_witness :
    aggregate [[(0:ℚ)]] [-1, 0] meanReducer = .error .InvalidBoundary :=
  (aggregate_invalid_iff [[(0:ℚ)]] [-1, 0] meanReducer (by decide)).mpr
    (Or.inl ⟨-1, by decide, by decide⟩)

/-- C6: `aggregate` is atomic — it either fails with an error or returns a
fully valid aggregated matrix (one well-shaped column per segment); and on
validated boundaries, a reducer that fails or returns a wrong-shaped column
on any segment makes the whole call fail with `ReducerError` (no partial
result, no retry). -/
theorem aggregate_atomic (m : Mat) (bs : List ℤ) (red : Reducer) :
    ((∃ e, aggregate m bs red = .error e)
      ∨ ∃ out, aggregate m bs red = .ok out
          ∧ out.length = (segsFor m.length bs).length
          ∧ ∀ c ∈ out, c.length = dimOf m)
    ∧ (∀ p ∈ segsFor m.length bs,
        2 ≤ bs.length → boundsOK m.length bs = true →
        strictlyInc bs = true →
        (¬ ∃ c, red (sliceCols m p.1 p.2) = some c ∧ c.length = dimOf m) →
        aggregate m bs red = .error .ReducerError) := by
  constructor
  · rcases hres : aggregate m bs red with e | out
    · exact Or.inl ⟨e, rfl⟩
    · refine Or.inr ⟨out, rfl, ?_⟩
      unfold aggregate at hres
      by_cases h2 : bs.length < 2
      · rw [if_pos h2] at hres
        exact Except.noConfusion hres
      · rw [if_neg h2] at hres
        by_cases hval : (boundsOK m.length bs && strictlyInc bs) = true
        · rw [if_pos hval] at hres
          exact aggregateSegs_ok_elim hres
        · rw [if_neg hval] at hres
          exact Except.noConfusion hres
  · intro p hp hlen hbOK hinc hbad
    unfold aggregate
    rw [if_neg (by omega), if_pos (by simp [hbOK, hinc])]
    exact aggregateSegs_fail p hp hbad

theorem aggregate_atomic_witness :
    aggregate [[(0:ℚ)]] [0, 1] (fun _ => none) = .error .ReducerError :=
  (aggregate_atomic [[(0:ℚ)]] [0, 1] (fun _ => none)).2 (0, 1) (by decide)
    (by decide) (by decide) (by decide) (by simp)

/-- C7: on the spec's worked example — D=2, T=6, columns
[0,0],[2,2],[4,4],[0,0],[2,2],[4,4], boundaries [0,3,6], mean reducer —
`aggregate` returns exactly two columns, the mean [2,2] of columns 0–2 and
the mean [2,2] of columns 3–5. -/
theorem aggregate_example_mean :
    aggregate [[(0:ℚ),0],[2,2],[4,4],[0,0],[2,2],[4,4]] [0,3,6] meanReducer
      = .ok [[2,2],[2,2]] := by
  simp [aggregate, aggregateSegs, segsFor, normBoundaries, addEndpoints,
    withStart, boundsOK, strictlyInc, segmentsOf, sliceCols, dimOf,
    meanReducer, colSumFold, colAdd]
  norm_num

/-- C8: `aggregate` is deterministic and referentially transparent — two
runs on equal inputs (matrix, boundaries, reducer) produce equal outputs.
(In this pure embedding the input matrix is immutable, so the absence of
side effects on it is intrinsic.) -/
theorem aggregate_deterministic (m₁ m₂ : Mat) (bs₁ bs₂ : List ℤ)
    (r₁ r₂ : Reducer) (hm : m₁ = m₂) (hb : bs₁ = bs₂) (hr : r₁ = r₂) :
    aggregate m₁ bs₁ r₁ = aggregate m₂ bs₂ r₂ := by
  subst hm
  subst hb
  subst hr
  rfl

theorem aggregate_deterministic_witness :
    aggregate [[(0:ℚ)]] [0, 1] meanReducer
      = aggregate [[(0:ℚ)]] [0, 1] meanReducer :=
  aggregate_deterministic [[(0:ℚ)]] [[(0:ℚ)]] [0, 1] [0, 1] meanReducer
    meanReducer rfl rfl rfl

/-- C9: `sync` without an aggregation argument defaults to arithmetic-mean
aggregation: it equals `aggregate` with the mean reducer, and equals
`sync` called with the mean reducer explicitly. -/
theorem sync_default_mean (m : Mat) (bs : List ℤ) :
    sync m bs none = aggregate m bs meanReducer
    ∧ sync m bs none = sync m bs (some meanReducer) :=
  ⟨rfl, rfl⟩

/-- C10: in the example script every call to `sync` is fed boundaries
produced by `fix_frames` with `x_max` set to the matrix's frame count, so
the boundary sequence reaching `sync` always lies within [0, T] and
contains the upper frame bound T. -/
theorem script_boundaries_normalized (cqt : Mat) (beats : List ℤ) :
    beat_sync_script cqt beats
        = sync cqt ((fix_frames beats cqt.length).map Int.ofNat) none
    ∧ (∀ x ∈ fix_frames beats cqt.length, x ≤ cqt.length)
    ∧ cqt.length ∈ fix_frames beats cqt.length :=
  ⟨rfl, fix_frames_mem_le beats cqt.length, fix_frames_mem_max beats cqt.length⟩

end Librosa
